import Mathlib

/-!
Verification of the lock-free fixed-size memory pool
(`LockFreeMemoryPool.hpp`).

Shallow embedding.  Addresses are natural numbers.  The bytes of a free
slot are reinterpreted as a `FreeNode { FreeNode* next; }`, so the only
memory content the pool ever reads or writes is the `next` pointer stored
at the start of a slot; we model memory as `mem : Nat → Option Nat`
(`none` = `nullptr`) giving the `next` field stored at each address.

The template instantiation `LockFreeMemoryPool<T, poolSize>` is modelled
by the parameters `sizeT` (= `sizeof(T)`) and `N` (= `poolSize`).
`_localCache` is a `static thread_local` member: it belongs to the
template instantiation and the thread, not to a pool object.  We therefore
keep it (together with the memory) in a `World` shared by all pool
instances of the instantiation, indexed by thread id `Fin K`,
while each pool object (`PoolInst`) carries only its own `buffer` base
address and its own atomic `freeList` head.
-/

/-- Cache line size: `constexpr std::size_t CACHE_LINE = 64;` -/
def CACHE_LINE : Nat := 64

/-- Size of `FreeNode` (one pointer): 8 bytes on the modelled LP64 platform. -/
def PTR_SIZE : Nat := 8

/-- A C++ pointer value: `none` is `nullptr`. -/
abbrev Ptr := Option Nat

/-- Total payload bytes: `total_bytes() = poolSize * sizeof(T)`. -/
def total_bytes (sizeT N : Nat) : Nat := N * sizeT

/-- The size actually requested from `aligned_alloc`:
`if (size % CACHE_LINE != 0) size += CACHE_LINE - (size % CACHE_LINE);` -/
def allocSize (sizeT N : Nat) : Nat :=
  let size := total_bytes sizeT N
  if size % CACHE_LINE ≠ 0 then size + (CACHE_LINE - size % CACHE_LINE) else size

/-- Address of slot `i`: `buffer + i * sizeof(T)`. -/
def slotAddr (buffer sizeT i : Nat) : Nat := buffer + i * sizeT

/-- The `N` slot addresses of a pool. -/
def slots (buffer sizeT N : Nat) : List Nat :=
  (List.range N).map (slotAddr buffer sizeT)

/-- Pointwise update of the modelled memory. -/
def updMem (m : Nat → Ptr) (a : Nat) (v : Ptr) : Nat → Ptr :=
  fun x => if x = a then v else m x

/-- Pointwise update of a per-thread map. -/
def updThread {K : Nat} {α : Type} (f : Fin K → α) (t : Fin K) (v : α) :
    Fin K → α :=
  fun x => if x = t then v else f x

/-- State shared by every pool object of one template instantiation:
the memory holding the overlaid `next` fields, the `static thread_local
FreeNode* _localCache` (one per thread, per instantiation — NOT per pool
object), and the list of live `aligned_alloc` blocks (for the
destructor's `std::free`). -/
structure World (K : Nat) where
  mem : Nat → Ptr
  localCache : Fin K → Ptr
  blocks : List Nat

/-- One pool object: its `buffer` base and its `freeList` head. -/
structure PoolInst where
  buffer : Nat
  freeList : Ptr

/-- The constructor's build loop after `k` iterations:
`for i in 0..k-1 { node = buffer + i*sizeof(T); node->next = head; head = node; }`.
Returns the updated memory and the local variable `head`. -/
def buildFreeList (buffer sizeT : Nat) (mem : Nat → Ptr) : Nat → (Nat → Ptr) × Ptr
  | 0 => (mem, none)
  | k + 1 =>
    let s := buildFreeList buffer sizeT mem k
    (updMem s.1 (slotAddr buffer sizeT k) s.2, some (slotAddr buffer sizeT k))

/-- The constructor `LockFreeMemoryPool()`.  `alignedAllocResult` is what
`std::aligned_alloc(CACHE_LINE, allocSize)` returned (`none` = `NULL`):
on `NULL` the constructor throws `std::bad_alloc` (modelled as `.error`);
otherwise it builds the free chain through the slots and publishes the
head as `freeList`. -/
def constructPool {K : Nat} (sizeT N : Nat) (alignedAllocResult : Option Nat)
    (w : World K) : Except Unit (World K × PoolInst) :=
  match alignedAllocResult with
  | none => .error ()
  | some buffer =>
    let s := buildFreeList buffer sizeT w.mem N
    .ok ({ w with mem := s.1, blocks := buffer :: w.blocks },
         { buffer := buffer, freeList := s.2 })

/-- Member function `T* allocate()` run by thread `t`.
Fast path: pop `_localCache`.  Slow path: CAS-pop the global `freeList`
(executed here without interference, so the first CAS succeeds; the
interleaved version is `CStep` below).  Returns the pointer and the
updated world / pool object. -/
def allocate {K : Nat} (t : Fin K) (w : World K) (p : PoolInst) :
    Ptr × World K × PoolInst :=
  match w.localCache t with
  | some n =>
    (some n, { w with localCache := updThread w.localCache t (w.mem n) }, p)
  | none =>
    match p.freeList with
    | some head => (some head, w, { p with freeList := w.mem head })
    | none => (none, w, p)

/-- Member function `void deallocate(T* ptr)` run by thread `t`:
`node->next = _localCache; _localCache = node;`.
The pool object `inst` is the `this` of the member call; the body never
reads or writes it (only the static `_localCache` and the node's bytes),
which is why it is an unused argument. -/
def deallocate {K : Nat} (t : Fin K) (ptr : Nat) (w : World K)
    (_inst : PoolInst) : World K :=
  { w with mem := updMem w.mem ptr (w.localCache t),
           localCache := updThread w.localCache t (some ptr) }

/-- The destructor `~LockFreeMemoryPool()`: `std::free(buffer)`.  It releases the block
and touches nothing else — in particular no thread's `_localCache`. -/
def destroyPool {K : Nat} (w : World K) (p : PoolInst) : World K :=
  { w with blocks := w.blocks.erase p.buffer }

/-- Runs `n` consecutive `allocate` calls by thread `t`, collecting results. -/
def allocN {K : Nat} (t : Fin K) : Nat → World K → PoolInst →
    List Ptr × World K × PoolInst
  | 0, w, p => ([], w, p)
  | n + 1, w, p =>
    let a := allocate t w p
    let r := allocN t n a.2.1 a.2.2
    (a.1 :: r.1, r.2)

/-- Chain predicate `NodeChain mem head l`: starting from pointer `head`, following the
`next` fields stored in `mem` traverses exactly the addresses in `l` and
ends at `nullptr`. -/
inductive NodeChain (mem : Nat → Ptr) : Ptr → List Nat → Prop
  | nil : NodeChain mem none []
  | cons {a : Nat} {p : Ptr} {l : List Nat} :
      mem a = p → NodeChain mem p l → NodeChain mem (some a) (a :: l)

/-- The chain the constructor's loop has built after `k` iterations:
slot `k-1` first (it was pushed last), down to slot `0`. -/
def initChainList (buffer sizeT k : Nat) : List Nat :=
  ((List.range k).reverse).map (slotAddr buffer sizeT)

lemma slotAddr_inj {buffer sizeT : Nat} (hs : 0 < sizeT) {i j : Nat}
    (h : slotAddr buffer sizeT i = slotAddr buffer sizeT j) : i = j := by
  unfold slotAddr at h
  have := Nat.add_left_cancel h
  exact Nat.eq_of_mul_eq_mul_right hs this

lemma mem_initChainList {buffer sizeT k a : Nat} :
    a ∈ initChainList buffer sizeT k ↔ ∃ i < k, a = slotAddr buffer sizeT i := by
  unfold initChainList
  simp [List.mem_map, List.mem_range, eq_comm]

lemma initChainList_nodup {buffer sizeT k : Nat} (hs : 0 < sizeT) :
    (initChainList buffer sizeT k).Nodup := by
  unfold initChainList
  refine List.Nodup.map ?_ (List.nodup_reverse.mpr (List.nodup_range k))
  intro i j h
  exact slotAddr_inj hs h

lemma slots_nodup {buffer sizeT N : Nat} (hs : 0 < sizeT) :
    (slots buffer sizeT N).Nodup := by
  unfold slots
  refine List.Nodup.map ?_ (List.nodup_range N)
  intro i j h
  exact slotAddr_inj hs h

lemma initChainList_perm_slots {buffer sizeT N : Nat} :
    (initChainList buffer sizeT N).Perm (slots buffer sizeT N) := by
  unfold initChainList slots
  exact ((List.range N).reverse_perm).map (slotAddr buffer sizeT)

/-- Updating memory at an address outside a chain leaves the chain intact. -/
lemma NodeChain.updMem_of_not_mem {m : Nat → Ptr} {fl : Ptr} {l : List Nat}
    (h : NodeChain m fl l) {a : Nat} (ha : a ∉ l) (v : Ptr) :
    NodeChain (updMem m a v) fl l := by
  induction h with
  | nil => exact .nil
  | cons hm _ ih =>
    rename_i b p l' _
    refine .cons ?_ (ih (fun hmem => ha (List.mem_cons_of_mem _ hmem)))
    have hba : b ≠ a := fun hba => ha (hba ▸ List.mem_cons_self b l')
    simpa [updMem, hba] using hm

lemma NodeChain.none_nil {m : Nat → Ptr} {l : List Nat}
    (h : NodeChain m none l) : l = [] := by
  cases h; rfl

lemma NodeChain.some_cons {m : Nat → Ptr} {a : Nat} {l : List Nat}
    (h : NodeChain m (some a) l) :
    ∃ l', l = a :: l' ∧ NodeChain m (m a) l' := by
  cases h with
  | cons hm hc => exact ⟨_, rfl, hm ▸ hc⟩

/-- A chain readout is unique: the list is determined by memory and head. -/
lemma NodeChain.unique {m : Nat → Ptr} {fl : Ptr} {l₁ l₂ : List Nat}
    (h₁ : NodeChain m fl l₁) (h₂ : NodeChain m fl l₂) : l₁ = l₂ := by
  induction h₁ generalizing l₂ with
  | nil => exact (h₂.none_nil).symm
  | cons hm _ ih =>
    obtain ⟨l', rfl, hc⟩ := h₂.some_cons
    rw [ih (hm ▸ hc)]

/-- After `k` iterations the constructor's loop has built exactly the
chain `slot (k-1), …, slot 0` from the current head. -/
lemma buildFreeList_chain {buffer sizeT : Nat} (hs : 0 < sizeT)
    (mem : Nat → Ptr) (k : Nat) :
    NodeChain (buildFreeList buffer sizeT mem k).1
      (buildFreeList buffer sizeT mem k).2 (initChainList buffer sizeT k) := by
  induction k with
  | zero => exact .nil
  | succ k ih =>
    have hstep : initChainList buffer sizeT (k + 1) =
        slotAddr buffer sizeT k :: initChainList buffer sizeT k := by
      unfold initChainList
      simp [List.range_succ]
    rw [hstep]
    show NodeChain
      (updMem (buildFreeList buffer sizeT mem k).1 (slotAddr buffer sizeT k)
        (buildFreeList buffer sizeT mem k).2)
      (some (slotAddr buffer sizeT k))
      (slotAddr buffer sizeT k :: initChainList buffer sizeT k)
    have hnot : slotAddr buffer sizeT k ∉ initChainList buffer sizeT k := by
      rw [mem_initChainList]
      rintro ⟨i, hi, hEq⟩
      exact absurd (slotAddr_inj hs hEq) (by omega)
    refine .cons ?_ (ih.updMem_of_not_mem hnot _)
    simp [updMem]

/-- Sequential (single-operation-at-a-time) semantics of the pool with a
ghost `inUse` component recording the addresses currently held by
callers.  `allocate` moves the returned address into `inUse`;
`deallocate` (whose caller-enforced precondition is `a ∈ inUse`) removes
it again. -/
structure GState (K : Nat) where
  w : World K
  p : PoolInst
  inUse : List Nat

/-- Effect of one `allocate` call by thread `t` on the ghost state. -/
def allocG {K : Nat} (t : Fin K) (s : GState K) : GState K :=
  let a := allocate t s.w s.p
  { w := a.2.1, p := a.2.2,
    inUse := match a.1 with | some x => x :: s.inUse | none => s.inUse }

/-- Effect of one `deallocate` call by thread `t` on the ghost state. -/
def deallocG {K : Nat} (t : Fin K) (a : Nat) (s : GState K) : GState K :=
  { w := deallocate t a s.w s.p, p := s.p, inUse := s.inUse.erase a }

/-- States reachable from a freshly constructed pool (single pool, all
thread-local caches still `nullptr`) by any interleaving of `allocate`
calls and precondition-respecting `deallocate` calls. -/
inductive Reach (sizeT N buffer : Nat) (K : Nat) : GState K → Prop
  | init (mem0 : Nat → Ptr) (blocks0 : List Nat) (w1 : World K) (p1 : PoolInst) :
      constructPool sizeT N (some buffer)
        { mem := mem0, localCache := fun _ => none, blocks := blocks0 }
        = .ok (w1, p1) →
      Reach sizeT N buffer K { w := w1, p := p1, inUse := [] }
  | alloc (t : Fin K) {s : GState K} :
      Reach sizeT N buffer K s → Reach sizeT N buffer K (allocG t s)
  | dealloc (t : Fin K) (a : Nat) {s : GState K} :
      Reach sizeT N buffer K s → a ∈ s.inUse →
      Reach sizeT N buffer K (deallocG t a s)

/-- Combined content of all thread-local caches, as a multiset. -/
def cachesMS {K : Nat} (L : Fin K → List Nat) : Multiset Nat :=
  ∑ t : Fin K, (L t : Multiset Nat)

/-- The three-way per-slot partition: the global chain `G`, the
per-thread cache chains `L t` and the ghost `inUse` multiset together
hold each of the `N` slot addresses exactly once. -/
def PoolInv (buffer sizeT N : Nat) {K : Nat} (s : GState K) : Prop :=
  ∃ (G : List Nat) (L : Fin K → List Nat),
    NodeChain s.w.mem s.p.freeList G ∧
    (∀ t, NodeChain s.w.mem (s.w.localCache t) (L t)) ∧
    (G : Multiset Nat) + cachesMS L + (s.inUse : Multiset Nat)
      = (slots buffer sizeT N : Multiset Nat)

lemma cachesMS_split {K : Nat} (L : Fin K → List Nat) (t : Fin K) :
    cachesMS L
      = (L t : Multiset Nat) + ∑ x ∈ Finset.univ.erase t, (L x : Multiset Nat) := by
  unfold cachesMS
  rw [← Finset.add_sum_erase _ _ (Finset.mem_univ t)]

lemma cachesMS_update {K : Nat} (L : Fin K → List Nat) (t : Fin K) (v : List Nat) :
    cachesMS (updThread L t v)
      = (v : Multiset Nat) + ∑ x ∈ Finset.univ.erase t, (L x : Multiset Nat) := by
  rw [cachesMS_split (updThread L t v) t]
  unfold updThread
  rw [if_pos rfl]
  congr 1
  refine Finset.sum_congr rfl ?_
  intro x hx
  rw [if_neg (Finset.ne_of_mem_erase hx)]

lemma count_cachesMS_pos {K : Nat} {L : Fin K → List Nat} {a : Nat} {t : Fin K}
    (h : a ∈ L t) : 0 < Multiset.count a (cachesMS L) := by
  have h1 : (L t : Multiset Nat) ≤ cachesMS L := by
    rw [cachesMS_split L t]; exact self_le_add_right _ _
  have h2 : 0 < Multiset.count a (L t : Multiset Nat) :=
    Multiset.count_pos.mpr (by simpa using h)
  exact lt_of_lt_of_le h2 (Multiset.count_le_of_le a h1)

/-- Disjointness extracted from the partition equation: an in-use
address is in no free chain (global or any thread's cache). -/
lemma partition_not_free {buffer sizeT N K : Nat} {G : List Nat}
    {L : Fin K → List Nat} {inUse : List Nat} (hs : 0 < sizeT)
    (hMS : (G : Multiset Nat) + cachesMS L + (inUse : Multiset Nat)
      = (slots buffer sizeT N : Multiset Nat))
    {a : Nat} (ha : a ∈ inUse) : a ∉ G ∧ ∀ t, a ∉ L t := by
  have hnd : (slots buffer sizeT N : Multiset Nat).Nodup := by
    simpa using @slots_nodup buffer sizeT N hs
  have hle : Multiset.count a ((G : Multiset Nat) + cachesMS L + (inUse : Multiset Nat)) ≤ 1 := by
    rw [hMS]; exact Multiset.nodup_iff_count_le_one.mp hnd a
  rw [Multiset.count_add, Multiset.count_add] at hle
  have hin : 0 < Multiset.count a (inUse : Multiset Nat) :=
    Multiset.count_pos.mpr (by simpa using ha)
  constructor
  · intro hG
    have : 0 < Multiset.count a (G : Multiset Nat) :=
      Multiset.count_pos.mpr (by simpa using hG)
    omega
  · intro t hL
    have := count_cachesMS_pos (t := t) hL
    omega

lemma ms_shuffle1 (x y z : Multiset Nat) (a : Nat) :
    x + y + (a ::ₘ z) = (a ::ₘ x) + y + z := by
  simp [Multiset.cons_add, Multiset.add_cons]

lemma ms_shuffle2 (x y z w : Multiset Nat) (a : Nat) :
    x + (y + z) + (a ::ₘ w) = x + ((a ::ₘ y) + z) + w := by
  simp [Multiset.cons_add, Multiset.add_cons]

/-- The per-slot partition holds in every reachable state. -/
lemma reach_poolInv {sizeT N buffer K : Nat} {s : GState K} (hsz : 0 < sizeT)
    (h : Reach sizeT N buffer K s) : PoolInv buffer sizeT N s := by
  induction h with
  | init mem0 blocks0 w1 p1 hctor =>
    simp only [constructPool, Except.ok.injEq, Prod.mk.injEq] at hctor
    obtain ⟨hw, hp⟩ := hctor
    subst hw; subst hp
    refine ⟨initChainList buffer sizeT N, fun _ => [], ?_, ?_, ?_⟩
    · exact buildFreeList_chain hsz mem0 N
    · intro t; exact .nil
    · simp only [cachesMS, Multiset.coe_nil, Finset.sum_const_zero, add_zero]
      exact Multiset.coe_eq_coe.mpr initChainList_perm_slots
  | alloc t hr ih =>
    rename_i s
    obtain ⟨G, L, hG, hL, hMS⟩ := ih
    cases hcache : s.w.localCache t with
    | some n =>
      obtain ⟨rest, hLt, hrest⟩ := (hcache ▸ hL t).some_cons
      refine ⟨G, updThread L t rest, ?_, ?_, ?_⟩
      · simpa [allocG, allocate, hcache] using hG
      · intro u
        by_cases hu : u = t
        · subst hu
          simpa [allocG, allocate, hcache, updThread] using hrest
        · simpa [allocG, allocate, hcache, updThread, hu] using hL u
      · simp only [allocG, allocate, hcache]
        rw [cachesMS_update, ← Multiset.cons_coe, ms_shuffle2,
          Multiset.cons_coe, ← hLt, ← cachesMS_split]
        exact hMS
    | none =>
      cases hfl : s.p.freeList with
      | some hd =>
        obtain ⟨G', hGd, hG'⟩ := (hfl ▸ hG).some_cons
        refine ⟨G', L, ?_, ?_, ?_⟩
        · simpa [allocG, allocate, hcache, hfl] using hG'
        · intro u
          simpa [allocG, allocate, hcache, hfl] using hL u
        · simp only [allocG, allocate, hcache, hfl]
          rw [← Multiset.cons_coe, ms_shuffle1, Multiset.cons_coe, ← hGd]
          exact hMS
      | none =>
        exact ⟨G, L, by simpa [allocG, allocate, hcache, hfl] using hG,
          fun u => by simpa [allocG, allocate, hcache, hfl] using hL u,
          by simpa [allocG, allocate, hcache, hfl] using hMS⟩
  | dealloc t a hr hmem ih =>
    rename_i s
    obtain ⟨G, L, hG, hL, hMS⟩ := ih
    obtain ⟨hnG, hnL⟩ := partition_not_free hsz hMS hmem
    have hiu : (s.inUse : Multiset Nat) = a ::ₘ (s.inUse.erase a : List Nat) := by
      rw [Multiset.cons_coe]
      exact Multiset.coe_eq_coe.mpr (List.perm_cons_erase hmem)
    refine ⟨G, updThread L t (a :: L t), ?_, ?_, ?_⟩
    · exact hG.updMem_of_not_mem hnG _
    · intro u
      by_cases hu : u = t
      · subst hu
        show NodeChain (deallocate u a s.w s.p).mem
          ((deallocate u a s.w s.p).localCache u) _
        simp only [deallocate, updThread, if_pos rfl]
        refine .cons ?_ (((hL u).updMem_of_not_mem (hnL u)) _)
        · simp [updMem]
      · show NodeChain (deallocate t a s.w s.p).mem
          ((deallocate t a s.w s.p).localCache u) _
        simp only [deallocate, updThread, if_neg hu]
        exact (hL u).updMem_of_not_mem (hnL u) _
    · show (G : Multiset Nat) + cachesMS (updThread L t (a :: L t))
        + ((s.inUse.erase a : List Nat) : Multiset Nat) = _
      rw [cachesMS_update, ← Multiset.cons_coe, ← ms_shuffle2,
        ← cachesMS_split, ← hiu]
      exact hMS

lemma NodeChain.cons_elim {m : Nat → Ptr} {fl : Ptr} {a : Nat} {l : List Nat}
    (h : NodeChain m fl (a :: l)) : fl = some a ∧ NodeChain m (m a) l := by
  cases h with
  | cons hm hc => exact ⟨rfl, hm ▸ hc⟩

/-- With an empty thread-local cache, `length G + 1` successive
`allocate` calls pop exactly the global chain `G` in order and then
report exhaustion (`none`). -/
lemma allocN_pops {K : Nat} (t : Fin K) {w : World K}
    (hc : w.localCache t = none) :
    ∀ (G : List Nat) (p : PoolInst), NodeChain w.mem p.freeList G →
      (allocN t (G.length + 1) w p).1 = G.map some ++ [none] := by
  intro G
  induction G with
  | nil =>
    intro p hG
    have hfl : p.freeList = none := by
      cases hfl : p.freeList with
      | none => rfl
      | some a =>
        rw [hfl] at hG
        obtain ⟨l', hl, _⟩ := hG.some_cons
        cases hl
    simp [allocN, allocate, hc, hfl]
  | cons a l ih =>
    intro p hG
    obtain ⟨hfl, hnext⟩ := hG.cons_elim
    have hrec := ih { p with freeList := w.mem a } hnext
    have hstep : (allocN t (l.length + 1 + 1) w p).1
        = (allocate t w p).1
          :: (allocN t (l.length + 1) (allocate t w p).2.1
                (allocate t w p).2.2).1 := rfl
    rw [List.length_cons, hstep]
    simp only [allocate, hc, hfl]
    rw [hrec]
    simp

/-- Control state of one thread inside `allocate`, at the granularity of
its shared-memory accesses.  `gotHead h` holds the local variable
`head` (after the initial acquire load, or after a failed
`compare_exchange_weak` re-loaded it); `ready h n` additionally holds
the local `next = head->next`; `done r` is the returned value. -/
inductive TState
  | start : TState
  | gotHead : Ptr → TState
  | ready : Nat → Ptr → TState
  | done : Ptr → TState
deriving DecidableEq

/-- Shared configuration of a pool being used by `K` concurrently
allocating threads: the memory, the atomic `freeList` head, each
thread's `_localCache` and each thread's control state. -/
structure CConf (K : Nat) where
  mem : Nat → Ptr
  freeList : Ptr
  cache : Fin K → Ptr
  ts : Fin K → TState

/-- One interleaving step: some thread performs one shared-memory access
of `allocate`.  `casOk` is a successful `compare_exchange_weak`
(it requires the head still to equal the observed `h` and atomically
swings it to the observed `next`); `casFail` is a failed one (lost race
or spurious weak failure) which re-loads `head` from `freeList`. -/
inductive CStep {K : Nat} : CConf K → CConf K → Prop
  | fastPath (c : CConf K) (t : Fin K) (n : Nat) :
      c.ts t = .start → c.cache t = some n →
      CStep c { c with cache := updThread c.cache t (c.mem n),
                       ts := updThread c.ts t (.done (some n)) }
  | loadHead (c : CConf K) (t : Fin K) :
      c.ts t = .start → c.cache t = none →
      CStep c { c with ts := updThread c.ts t (.gotHead c.freeList) }
  | exhausted (c : CConf K) (t : Fin K) :
      c.ts t = .gotHead none →
      CStep c { c with ts := updThread c.ts t (.done none) }
  | readNext (c : CConf K) (t : Fin K) (h : Nat) :
      c.ts t = .gotHead (some h) →
      CStep c { c with ts := updThread c.ts t (.ready h (c.mem h)) }
  | casOk (c : CConf K) (t : Fin K) (h : Nat) (n : Ptr) :
      c.ts t = .ready h n → c.freeList = some h →
      CStep c { c with freeList := n, ts := updThread c.ts t (.done (some h)) }
  | casFail (c : CConf K) (t : Fin K) (h : Nat) (n : Ptr) :
      c.ts t = .ready h n →
      CStep c { c with ts := updThread c.ts t (.gotHead c.freeList) }

/-- Configurations reachable when `K` threads, each with a still-empty
`_localCache`, race through `allocate` on a freshly constructed pool
(no `deallocate` occurs in these runs). -/
inductive ReachC (sizeT N buffer : Nat) (K : Nat) : CConf K → Prop
  | init (mem0 : Nat → Ptr) (blocks0 : List Nat) (w1 : World K) (p1 : PoolInst) :
      constructPool sizeT N (some buffer)
        { mem := mem0, localCache := fun _ => none, blocks := blocks0 }
        = .ok (w1, p1) →
      ReachC sizeT N buffer K
        { mem := w1.mem, freeList := p1.freeList,
          cache := w1.localCache, ts := fun _ => .start }
  | step {c c' : CConf K} :
      ReachC sizeT N buffer K c → CStep c c' → ReachC sizeT N buffer K c'

/-- The addresses a finished thread contributes to the in-use set. -/
def doneContrib : TState → Multiset Nat
  | .done (some a) => {a}
  | _ => 0

/-- Multiset of all addresses already handed out to finished threads. -/
def doneMS {K : Nat} (ts : Fin K → TState) : Multiset Nat :=
  ∑ t : Fin K, doneContrib (ts t)

lemma doneMS_split {K : Nat} (ts : Fin K → TState) (t : Fin K) :
    doneMS ts
      = doneContrib (ts t) + ∑ x ∈ Finset.univ.erase t, doneContrib (ts x) := by
  unfold doneMS
  rw [← Finset.add_sum_erase _ _ (Finset.mem_univ t)]

lemma doneMS_update {K : Nat} (ts : Fin K → TState) (t : Fin K) (v : TState) :
    doneMS (updThread ts t v)
      = doneContrib v + ∑ x ∈ Finset.univ.erase t, doneContrib (ts x) := by
  rw [doneMS_split (updThread ts t v) t]
  unfold updThread
  rw [if_pos rfl]
  congr 1
  refine Finset.sum_congr rfl ?_
  intro x hx
  rw [if_neg (Finset.ne_of_mem_erase hx)]

/-- Invariant of the concurrent-allocation runs: caches stay empty, the
free chain is well formed, every observed `next` is still accurate
(memory is never written in these runs), and the handed-out addresses
together with the remaining chain form exactly the slot set. -/
def CInv (buffer sizeT N : Nat) {K : Nat} (c : CConf K) : Prop :=
  (∀ t, c.cache t = none) ∧
  (∀ t h n, c.ts t = .ready h n → n = c.mem h) ∧
  ∃ G : List Nat,
    NodeChain c.mem c.freeList G ∧
    doneMS c.ts + (G : Multiset Nat) = (slots buffer sizeT N : Multiset Nat)

lemma doneContrib_start : doneContrib .start = 0 := rfl

lemma doneContrib_gotHead (p : Ptr) : doneContrib (.gotHead p) = 0 := rfl

lemma doneContrib_ready (h : Nat) (n : Ptr) : doneContrib (.ready h n) = 0 := rfl

lemma doneContrib_done_none : doneContrib (.done none) = 0 := rfl

lemma doneContrib_done_some (a : Nat) : doneContrib (.done (some a)) = {a} := rfl

lemma cInv_step {buffer sizeT N K : Nat} {c c' : CConf K}
    (hst : CStep c c') (hinv : CInv buffer sizeT N c) :
    CInv buffer sizeT N c' := by
  obtain ⟨hcache, hready, G, hG, hMS⟩ := hinv
  cases hst with
  | fastPath t n hts hct => exact absurd (hcache t ▸ hct) (by simp)
  | loadHead t hts hct =>
    refine ⟨hcache, ?_, G, hG, ?_⟩
    · intro u h n hu
      by_cases hut : u = t
      · subst hut; simp [updThread] at hu
      · exact hready u h n (by simpa [updThread, hut] using hu)
    · show doneMS (updThread c.ts t (.gotHead c.freeList)) + _ = _
      rw [doneMS_update, doneContrib_gotHead]
      rw [doneMS_split c.ts t, hts, doneContrib_start] at hMS
      exact hMS
  | exhausted t hts =>
    refine ⟨hcache, ?_, G, hG, ?_⟩
    · intro u h n hu
      by_cases hut : u = t
      · subst hut; simp [updThread] at hu
      · exact hready u h n (by simpa [updThread, hut] using hu)
    · show doneMS (updThread c.ts t (.done none)) + _ = _
      rw [doneMS_update, doneContrib_done_none]
      rw [doneMS_split c.ts t, hts, doneContrib_gotHead] at hMS
      exact hMS
  | readNext t h hts =>
    refine ⟨hcache, ?_, G, hG, ?_⟩
    · intro u h' n' hu
      by_cases hut : u = t
      · subst hut
        have hu' : TState.ready h (c.mem h) = TState.ready h' n' := by
          simpa [updThread] using hu
        cases hu'
        rfl
      · exact hready u h' n' (by simpa [updThread, hut] using hu)
    · show doneMS (updThread c.ts t (.ready h (c.mem h))) + _ = _
      rw [doneMS_update, doneContrib_ready]
      rw [doneMS_split c.ts t, hts, doneContrib_gotHead] at hMS
      exact hMS
  | casOk t h n hts hfl =>
    have hn : n = c.mem h := hready t h n hts
    obtain ⟨G', hGd, hG'⟩ := (hfl ▸ hG).some_cons
    refine ⟨hcache, ?_, G', ?_, ?_⟩
    · intro u h' n' hu
      by_cases hut : u = t
      · subst hut; simp [updThread] at hu
      · exact hready u h' n' (by simpa [updThread, hut] using hu)
    · show NodeChain c.mem n G'
      rw [hn]; exact hG'
    · show doneMS (updThread c.ts t (.done (some h))) + _ = _
      rw [doneMS_update, doneContrib_done_some]
      rw [doneMS_split c.ts t, hts, doneContrib_ready, zero_add, hGd,
        ← Multiset.cons_coe] at hMS
      rw [← hMS, ← Multiset.singleton_add]
      abel
  | casFail t h n hts =>
    refine ⟨hcache, ?_, G, hG, ?_⟩
    · intro u h' n' hu
      by_cases hut : u = t
      · subst hut; simp [updThread] at hu
      · exact hready u h' n' (by simpa [updThread, hut] using hu)
    · show doneMS (updThread c.ts t (.gotHead c.freeList)) + _ = _
      rw [doneMS_update, doneContrib_gotHead]
      rw [doneMS_split c.ts t, hts, doneContrib_ready] at hMS
      exact hMS

/-- The exclusivity invariant holds in every configuration reachable by
concurrently allocating threads. -/
lemma reachC_cInv {sizeT N buffer K : Nat} {c : CConf K} (hsz : 0 < sizeT)
    (h : ReachC sizeT N buffer K c) : CInv buffer sizeT N c := by
  induction h with
  | init mem0 blocks0 w1 p1 hctor =>
    simp only [constructPool, Except.ok.injEq, Prod.mk.injEq] at hctor
    obtain ⟨hw, hp⟩ := hctor
    subst hw; subst hp
    refine ⟨fun t => rfl, fun t h n hts => by simp at hts,
      initChainList buffer sizeT N, ?_, ?_⟩
    · exact buildFreeList_chain hsz mem0 N
    · have hz : doneMS (K := K) (fun _ => .start) = 0 := by
        unfold doneMS doneContrib
        simp
      rw [hz, zero_add]
      exact Multiset.coe_eq_coe.mpr initChainList_perm_slots
  | step hr hstep ih => exact cInv_step hstep ih

lemma total_bytes_le_allocSize (sizeT N : Nat) :
    total_bytes sizeT N ≤ allocSize sizeT N := by
  simp only [allocSize]
  split <;> omega

lemma initChainList_length {buffer sizeT k : Nat} :
    (initChainList buffer sizeT k).length = k := by
  simp [initChainList]

/-- Demo world/pool: a freshly constructed `LockFreeMemoryPool<T,1>` with
`sizeof(T) = 8`, base address `0`, one thread. -/
def demoW : World 1 :=
  { mem := (buildFreeList 0 8 (fun _ => none) 1).1,
    localCache := fun _ => none, blocks := [0] }

def demoP : PoolInst :=
  { buffer := 0, freeList := (buildFreeList 0 8 (fun _ => none) 1).2 }

def demoInit : GState 1 := { w := demoW, p := demoP, inUse := [] }

/-- C1.  Per-slot partition invariant: in every state reachable from a
freshly constructed pool by `allocate` calls and precondition-respecting
`deallocate` calls, the global free chain, the per-thread local-cache
chains and the in-use addresses together contain each of the `N` slot
addresses exactly once (their multiset union equals the slot set and has
no duplicates, so the three kinds of sets are pairwise disjoint). -/
theorem C1_per_slot_partition {sizeT N buffer K : Nat} {s : GState K}
    (hsz : 0 < sizeT) (h : Reach sizeT N buffer K s) :
    ∃ (G : List Nat) (L : Fin K → List Nat),
      NodeChain s.w.mem s.p.freeList G ∧
      (∀ t, NodeChain s.w.mem (s.w.localCache t) (L t)) ∧
      (G : Multiset Nat) + cachesMS L + (s.inUse : Multiset Nat)
        = (slots buffer sizeT N : Multiset Nat) ∧
      ((G : Multiset Nat) + cachesMS L + (s.inUse : Multiset Nat)).Nodup := by
  obtain ⟨G, L, h1, h2, h3⟩ := reach_poolInv hsz h
  refine ⟨G, L, h1, h2, h3, ?_⟩
  rw [h3]
  simpa using @slots_nodup buffer sizeT N hsz

theorem C1_witness :
    ∃ (G : List Nat) (L : Fin 1 → List Nat),
      NodeChain demoInit.w.mem demoInit.p.freeList G ∧
      (∀ t, NodeChain demoInit.w.mem (demoInit.w.localCache t) (L t)) ∧
      (G : Multiset Nat) + cachesMS L + (demoInit.inUse : Multiset Nat)
        = (slots 0 8 1 : Multiset Nat) ∧
      ((G : Multiset Nat) + cachesMS L + (demoInit.inUse : Multiset Nat)).Nodup :=
  C1_per_slot_partition (by decide)
    (@Reach.init 8 1 0 1 (fun _ => none) [] demoW demoP rfl)

/-- C2.  Exhaustion exactness: from a freshly constructed pool of
capacity `N` (all thread-local caches empty, no deallocations), the
first `N` `allocate` calls return non-null, pairwise distinct addresses
inside the owned storage block, and the `(N+1)`-th call returns the null
result. -/
theorem C2_exhaustion_exactness {K : Nat} (sizeT N buffer : Nat) (t : Fin K)
    (hsz : 0 < sizeT) (mem0 : Nat → Ptr) (blocks0 : List Nat)
    (w1 : World K) (p1 : PoolInst)
    (hctor : constructPool sizeT N (some buffer)
      { mem := mem0, localCache := fun _ => none, blocks := blocks0 }
        = .ok (w1, p1)) :
    ∃ addrs : List Nat,
      (allocN t (N + 1) w1 p1).1 = addrs.map some ++ [none] ∧
      addrs.length = N ∧ addrs.Nodup ∧
      ∀ a ∈ addrs, buffer ≤ a ∧ a + sizeT ≤ buffer + allocSize sizeT N := by
  simp only [constructPool, Except.ok.injEq, Prod.mk.injEq] at hctor
  obtain ⟨hw, hp⟩ := hctor
  subst hw; subst hp
  refine ⟨initChainList buffer sizeT N, ?_, initChainList_length, initChainList_nodup hsz, ?_⟩
  · have hres := @allocN_pops K t
      { mem := (buildFreeList buffer sizeT mem0 N).1,
        localCache := fun _ => none, blocks := buffer :: blocks0 }
      rfl (initChainList buffer sizeT N)
      { buffer := buffer, freeList := (buildFreeList buffer sizeT mem0 N).2 }
      (buildFreeList_chain hsz mem0 N)
    rw [initChainList_length] at hres
    exact hres
  · intro a ha
    obtain ⟨i, hi, rfl⟩ := mem_initChainList.mp ha
    have hb := total_bytes_le_allocSize sizeT N
    simp only [slotAddr, total_bytes] at *
    constructor
    · omega
    · nlinarith

/-- Demo: freshly constructed capacity-2 pool, `sizeof(T) = 8`, base `0`. -/
def demoW2 : World 1 :=
  { mem := (buildFreeList 0 8 (fun _ => none) 2).1,
    localCache := fun _ => none, blocks := [0] }

def demoP2 : PoolInst :=
  { buffer := 0, freeList := (buildFreeList 0 8 (fun _ => none) 2).2 }

theorem C2_witness :
    ∃ addrs : List Nat,
      (allocN (0 : Fin 1) (2 + 1) demoW2 demoP2).1 = addrs.map some ++ [none] ∧
      addrs.length = 2 ∧ addrs.Nodup ∧
      ∀ a ∈ addrs, 0 ≤ a ∧ a + 8 ≤ 0 + allocSize 8 2 :=
  C2_exhaustion_exactness 8 2 0 0 (by decide) (fun _ => none) [] demoW2 demoP2 rfl

/-- C3.  LIFO reuse after free: if a thread deallocates `a1` then `a2`,
its next two `allocate` calls return `a2` then `a1`, without touching the
global free list of any pool object; in general a just-deallocated
address is returned by that thread's next `allocate` before anything is
taken from a global list. -/
theorem C3_lifo_reuse {K : Nat} (t : Fin K) (w : World K) (p : PoolInst)
    (a1 a2 : Nat) :
    (allocate t (deallocate t a2 (deallocate t a1 w p) p) p).1 = some a2 ∧
    (allocate t (allocate t (deallocate t a2 (deallocate t a1 w p) p) p).2.1
      (allocate t (deallocate t a2 (deallocate t a1 w p) p) p).2.2).1 = some a1 ∧
    (allocate t (deallocate t a2 (deallocate t a1 w p) p) p).2.2 = p ∧
    (∀ (q r : PoolInst) (a : Nat), (allocate t (deallocate t a w q) r).1 = some a) := by
  refine ⟨?_, ?_, ?_, ?_⟩ <;> simp [allocate, deallocate, updThread, updMem]

/-- C5.  Deallocate frame: in any reachable state, `deallocate` on an
in-use slot leaves the global `freeList` head and the whole global free
chain unchanged (it only writes the slot's `next` field and the calling
thread's `_localCache`); moreover every `allocate` step leaves the
global chain a suffix of what it was, so no address ever moves from a
thread-local cache back into the Global Free List. -/
theorem C5_deallocate_frame {sizeT N buffer K : Nat} {s : GState K}
    (hsz : 0 < sizeT) (h : Reach sizeT N buffer K s) :
    (∀ (t : Fin K) (a : Nat), a ∈ s.inUse →
      (deallocG t a s).p.freeList = s.p.freeList ∧
      (deallocG t a s).p = s.p ∧
      (∀ G, NodeChain s.w.mem s.p.freeList G →
        NodeChain (deallocG t a s).w.mem (deallocG t a s).p.freeList G)) ∧
    (∀ t : Fin K, ∃ G G', NodeChain s.w.mem s.p.freeList G ∧
      NodeChain (allocG t s).w.mem (allocG t s).p.freeList G' ∧
      List.IsSuffix G' G) := by
  obtain ⟨G0, L, hG0, hL, hMS⟩ := reach_poolInv hsz h
  constructor
  · intro t a ha
    refine ⟨rfl, rfl, ?_⟩
    intro G hG
    have hGG0 : G = G0 := hG.unique hG0
    subst hGG0
    obtain ⟨hnG, -⟩ := partition_not_free hsz hMS ha
    exact hG.updMem_of_not_mem hnG _
  · intro t
    cases hcache : s.w.localCache t with
    | some n =>
      refine ⟨G0, G0, hG0, ?_, List.suffix_refl G0⟩
      simpa [allocG, allocate, hcache] using hG0
    | none =>
      cases hfl : s.p.freeList with
      | some hd =>
        obtain ⟨G', hGd, hG'⟩ := (hfl ▸ hG0).some_cons
        refine ⟨G0, G', hfl ▸ hG0, ?_, ?_⟩
        · simpa [allocG, allocate, hcache, hfl] using hG'
        · rw [hGd]
          exact List.suffix_cons hd G'
      | none =>
        refine ⟨G0, G0, hfl ▸ hG0, ?_, List.suffix_refl G0⟩
        simpa [allocG, allocate, hcache, hfl] using hG0

/-- Demo state with one slot allocated (so `demoAfterAlloc.inUse = [0]`). -/
def demoAfterAlloc : GState 1 := allocG 0 demoInit

theorem C5_witness :
    (deallocG 0 0 demoAfterAlloc).p = demoAfterAlloc.p ∧
    (deallocG 0 0 demoAfterAlloc).p.freeList = demoAfterAlloc.p.freeList :=
  have h5 := (C5_deallocate_frame (by decide)
    (Reach.alloc 0 (@Reach.init 8 1 0 1 (fun _ => none) [] demoW demoP rfl))).1
    0 0 (by decide)
  ⟨h5.2.1, h5.1⟩

/-- C4.  Concurrent-pop exclusivity: in any interleaving of `K` threads
racing through `allocate` on a fresh pool (no deallocations), no slot
address is returned to two different threads — a successful
`compare_exchange_weak` hands each popped slot to exactly one winner. -/
theorem C4_concurrent_pop_exclusivity {sizeT N buffer K : Nat} {c : CConf K}
    (hsz : 0 < sizeT) (h : ReachC sizeT N buffer K c)
    {t1 t2 : Fin K} {a : Nat}
    (h1 : c.ts t1 = .done (some a)) (h2 : c.ts t2 = .done (some a)) :
    t1 = t2 := by
  by_contra hne
  obtain ⟨-, -, G, hG, hMS⟩ := reachC_cInv hsz h
  have hnd : (slots buffer sizeT N : Multiset Nat).Nodup := by
    simpa using @slots_nodup buffer sizeT N hsz
  have hle : Multiset.count a (doneMS c.ts + (G : Multiset Nat)) ≤ 1 := by
    rw [hMS]
    exact Multiset.nodup_iff_count_le_one.mp hnd a
  rw [Multiset.count_add, doneMS_split c.ts t1, Multiset.count_add] at hle
  have c1 : Multiset.count a (doneContrib (c.ts t1)) = 1 := by
    rw [h1, doneContrib_done_some]
    simp
  have hsub : doneContrib (c.ts t2)
      ≤ ∑ x ∈ Finset.univ.erase t1, doneContrib (c.ts x) := by
    exact Finset.single_le_sum (fun i _ => Multiset.zero_le _)
      (Finset.mem_erase.mpr ⟨fun e => hne e.symm, Finset.mem_univ t2⟩)
  have c2 : 1 ≤ Multiset.count a
      (∑ x ∈ Finset.univ.erase t1, doneContrib (c.ts x)) := by
    refine le_trans ?_ (Multiset.count_le_of_le a hsub)
    rw [h2, doneContrib_done_some]
    simp
  omega

/-- Concrete two-thread race on a fresh `LockFreeMemoryPool<T,2>`
(`sizeof(T) = 8`, base `0`): thread 0 pops slot 1 (address 8), thread 1
pops slot 0 (address 0). -/
def raceW : World 2 :=
  { mem := (buildFreeList 0 8 (fun _ => none) 2).1,
    localCache := fun _ => none, blocks := [0] }

def raceP : PoolInst :=
  { buffer := 0, freeList := (buildFreeList 0 8 (fun _ => none) 2).2 }

def race0 : CConf 2 :=
  { mem := raceW.mem, freeList := raceP.freeList,
    cache := raceW.localCache, ts := fun _ => .start }

def race1 : CConf 2 :=
  { race0 with ts := updThread race0.ts 0 (.gotHead race0.freeList) }

def race2 : CConf 2 :=
  { race1 with ts := updThread race1.ts 0 (.ready 8 (race1.mem 8)) }

def race3 : CConf 2 :=
  { race2 with freeList := race2.mem 8,
               ts := updThread race2.ts 0 (.done (some 8)) }

def race4 : CConf 2 :=
  { race3 with ts := updThread race3.ts 1 (.gotHead race3.freeList) }

def race5 : CConf 2 :=
  { race4 with ts := updThread race4.ts 1 (.ready 0 (race4.mem 0)) }

def race6 : CConf 2 :=
  { race5 with freeList := race5.mem 0,
               ts := updThread race5.ts 1 (.done (some 0)) }

lemma race6_reach : ReachC 8 2 0 2 race6 := by
  refine ReachC.step (ReachC.step (ReachC.step (ReachC.step (ReachC.step
    (ReachC.step (@ReachC.init 8 2 0 2 (fun _ => none) [] raceW raceP rfl)
      (CStep.loadHead race0 0 rfl rfl))
      (CStep.readNext race1 0 8 (by decide)))
      (CStep.casOk race2 0 8 (race1.mem 8) (by decide) (by decide)))
      (CStep.loadHead race3 1 (by decide) rfl))
      (CStep.readNext race4 1 0 (by decide)))
      (CStep.casOk race5 1 0 (race4.mem 0) (by decide) (by decide))

theorem C4_witness :
    race6.ts 0 = .done (some 8) ∧ race6.ts 1 = .done (some 0) ∧
    (0 : Fin 2) = 0 :=
  ⟨by decide, by decide,
    C4_concurrent_pop_exclusivity (show (0:Nat) < 8 by decide) race6_reach
      (show race6.ts 0 = .done (some 8) by decide)
      (show race6.ts 0 = .done (some 8) by decide)⟩

/-- C6.  Error-handling shape: the constructor fails (throws
`std::bad_alloc`) precisely when `aligned_alloc` returns `NULL`, and
succeeds otherwise; `allocate` is total and reports exhaustion only via
the `nullptr` sentinel, exactly when both the thread-local cache and the
global free list are empty; `deallocate` is total and cannot fail. -/
theorem C6_error_shape {K : Nat} (sizeT N : Nat) (w : World K) (t : Fin K)
    (p : PoolInst) :
    constructPool sizeT N none w = .error () ∧
    (∀ b, ∃ w1 p1, constructPool sizeT N (some b) w = .ok (w1, p1)) ∧
    ((allocate t w p).1 = none ↔ w.localCache t = none ∧ p.freeList = none) ∧
    (∀ a q, ∃ w2, deallocate t a w q = w2) := by
  refine ⟨rfl, fun b => ⟨_, _, rfl⟩, ?_, fun a q => ⟨_, rfl⟩⟩
  cases hc : w.localCache t <;> cases hf : p.freeList <;>
    simp [allocate, hc, hf]

/-- C7.  Alignment contract: the requested block size is
`capacity × sizeof(T)` rounded up to the least multiple of the 64-byte
cache line, and the base address of a successfully constructed pool is
the 64-aligned address `aligned_alloc` produced. -/
theorem C7_alignment {K : Nat} (sizeT N b : Nat) (w w1 : World K)
    (p1 : PoolInst) (halign : b % CACHE_LINE = 0)
    (hctor : constructPool sizeT N (some b) w = .ok (w1, p1)) :
    p1.buffer % CACHE_LINE = 0 ∧
    allocSize sizeT N % CACHE_LINE = 0 ∧
    total_bytes sizeT N ≤ allocSize sizeT N ∧
    allocSize sizeT N < total_bytes sizeT N + CACHE_LINE := by
  have hb : p1.buffer = b := by
    simp only [constructPool, Except.ok.injEq, Prod.mk.injEq] at hctor
    rw [← hctor.2]
  refine ⟨hb ▸ halign, ?_, total_bytes_le_allocSize sizeT N, ?_⟩ <;>
    · simp only [allocSize, CACHE_LINE] at *
      generalize total_bytes sizeT N = m at *
      split <;> omega

def demoW64 : World 1 :=
  { mem := (buildFreeList 64 8 (fun _ => none) 4).1,
    localCache := fun _ => none, blocks := [64] }

def demoP64 : PoolInst :=
  { buffer := 64, freeList := (buildFreeList 64 8 (fun _ => none) 4).2 }

theorem C7_witness :
    demoP64.buffer % CACHE_LINE = 0 ∧
    allocSize 8 4 % CACHE_LINE = 0 ∧
    total_bytes 8 4 ≤ allocSize 8 4 ∧
    allocSize 8 4 < total_bytes 8 4 + CACHE_LINE :=
  C7_alignment 8 4 64
    { mem := fun _ => none, localCache := fun _ => none, blocks := [] }
    demoW64 demoP64 (by decide) rfl

/-- C8.  Cross-instance cache sharing: `_localCache` is keyed by the
thread and the template parameters only (in the model it lives in the
`World`, not in a `PoolInst`), so an address deallocated through one
pool object is returned by the same thread's next `allocate` on any
other pool object of the same instantiation, which it leaves untouched. -/
theorem C8_cross_instance_cache {K : Nat} (t : Fin K) (w : World K)
    (poolA poolB : PoolInst) (a : Nat) :
    (allocate t (deallocate t a w poolA) poolB).1 = some a ∧
    (allocate t (deallocate t a w poolA) poolB).2.2 = poolB := by
  constructor <;> simp [allocate, deallocate, updThread]

/-- C9.  Destruction does not drain caches: the destructor only releases
the storage block; memory and every thread's `_localCache` are left
unchanged, so a cached address survives destruction and is handed out by
a later `allocate` on any pool object of the instantiation. -/
theorem C9_destructor_leaves_caches {K : Nat} (w : World K) (p q : PoolInst)
    (t : Fin K) (a : Nat) :
    (destroyPool w p).localCache = w.localCache ∧
    (destroyPool w p).mem = w.mem ∧
    (destroyPool w p).blocks = w.blocks.erase p.buffer ∧
    (w.localCache t = some a → (allocate t (destroyPool w p) q).1 = some a) := by
  refine ⟨rfl, rfl, rfl, fun hc => ?_⟩
  simp [allocate, destroyPool, hc]

theorem C9_witness :
    (destroyPool
        { mem := fun _ => none, localCache := fun _ => some 5, blocks := [7] }
        demoP).localCache
      = ({ mem := fun _ => none, localCache := fun _ => some 5,
           blocks := [7] } : World 1).localCache ∧
    (allocate 0 (destroyPool
        ({ mem := fun _ => none, localCache := fun _ => some 5,
           blocks := [7] } : World 1)
        demoP) demoP).1 = some 5 :=
  have h9 := C9_destructor_leaves_caches (K := 1)
    { mem := fun _ => none, localCache := fun _ => some 5, blocks := [7] }
    demoP demoP 0 5
  ⟨h9.1, h9.2.2.2 rfl⟩

/-- The byte range written when a `FreeNode` (one `next` pointer) is
stored at address `a` — by the constructor's build loop at each slot
start, and by `deallocate` at the returned slot's start. -/
def nodeWriteBytes (a : Nat) : Finset Nat := Finset.Ico a (a + PTR_SIZE)

/-- The byte range owned by slot `i`: `sizeof(T)` bytes from its start. -/
def slotBytes (buffer sizeT i : Nat) : Finset Nat :=
  Finset.Ico (slotAddr buffer sizeT i) (slotAddr buffer sizeT i + sizeT)

/-- C10.  Free-node overlay bound: the `FreeNode` written at the start
of each slot stays inside that slot's `sizeof(T)` bytes if and only if
`sizeof(T) ≥ sizeof(FreeNode)`; the code performs no compile-time or
runtime check of this precondition — construction succeeds for every
element size, so for `sizeof(T) < sizeof(FreeNode)` the write extends
past the slot's end. -/
theorem C10_freenode_overlay {buffer sizeT N : Nat} (hN : 0 < N) :
    ((∀ i < N, nodeWriteBytes (slotAddr buffer sizeT i)
        ⊆ slotBytes buffer sizeT i) ↔ PTR_SIZE ≤ sizeT) ∧
    (∀ (K : Nat) (w : World K),
      (constructPool sizeT N (some buffer) w).isOk = true) := by
  constructor
  · constructor
    · intro hc
      by_contra hlt
      push_neg at hlt
      have hmem : slotAddr buffer sizeT 0 + sizeT
          ∈ nodeWriteBytes (slotAddr buffer sizeT 0) := by
        simp only [nodeWriteBytes, Finset.mem_Ico]
        omega
      have := hc 0 hN hmem
      simp only [slotBytes, Finset.mem_Ico] at this
      omega
    · intro hle i _
      simp only [nodeWriteBytes, slotBytes]
      exact Finset.Ico_subset_Ico le_rfl (by omega)
  · intro K w
    rfl

theorem C10_witness :
    ((∀ i < 1, nodeWriteBytes (slotAddr 0 1 i) ⊆ slotBytes 0 1 i)
      ↔ PTR_SIZE ≤ 1) ∧
    (∀ (K : Nat) (w : World K),
      (constructPool 1 1 (some 0) w).isOk = true) :=
  C10_freenode_overlay (by decide)
